import Mathlib

/-!
Verification of the educational n-dimensional Sobel operator defined in
`lectures/three_dimensional_image_processing.ipynb`:

```python
def kernel_shape(ndim, dim):
    shape = [1,] * ndim
    shape[dim] = 3
    return shape

def sobel(image):
    ndim = image.ndim
    edge = np.array([1, 0, -1])
    smooth = np.array([1, 2, 1])
    output = np.zeros(image.shape, dtype=float)
    for edge_dim in range(ndim):
        kernel = edge.reshape(kernel_shape(ndim, edge_dim))
        for smooth_dim in range(ndim):
            if smooth_dim == edge_dim:
                continue
            kernel = kernel * smooth.reshape(kernel_shape(ndim, smooth_dim))
        output += ndi.convolve(image, kernel, mode='reflect')**2
    output = np.sqrt(output) / np.sqrt(ndim)
    return output
```

The embedding represents an `ndim = n` array as its shape together with a
total real-valued pixel function on integer coordinate vectors (the values at
out-of-range coordinates are irrelevant: every access the algorithm performs
goes through the reflective boundary map first).  Floating point arithmetic is
idealized as exact real arithmetic.
-/

/-- An n-dimensional image: a shape (length of each axis) and a real-valued
sample function on integer coordinate vectors.  Only the values at in-range
coordinates constitute the array's elements; the function is kept total so
that convolution can be written without dependent indexing. -/
structure Image (n : ℕ) where
  shape : Fin n → ℕ
  val : (Fin n → ℤ) → ℝ

theorem Image.ext_val {n : ℕ} {A B : Image n} (h1 : A.shape = B.shape)
    (h2 : A.val = B.val) : A = B := by
  cases A; cases B; cases h1; cases h2; rfl

/-- A coordinate vector `c` is in range for `shape` when every component lies
inside the corresponding axis. -/
def InRange (n : ℕ) (shape : Fin n → ℕ) (c : Fin n → ℤ) : Prop :=
  ∀ i, 0 ≤ c i ∧ c i < (shape i : ℤ)

instance instDecInRange (n : ℕ) (shape : Fin n → ℕ) (c : Fin n → ℤ) :
    Decidable (InRange n shape c) :=
  inferInstanceAs (Decidable (∀ i, 0 ≤ c i ∧ c i < (shape i : ℤ)))

/-- The 1-D centered-difference kernel `edge = np.array([1, 0, -1])`,
indexed by its position `0, 1, 2` in the length-3 array. -/
def edge : Fin 3 → ℝ := fun j => if j = 0 then 1 else if j = 1 then 0 else -1

/-- The 1-D smoothing kernel `smooth = np.array([1, 2, 1])`, indexed by its
position `0, 1, 2` in the length-3 array. -/
def smooth : Fin 3 → ℝ := fun j => if j = 0 then 1 else if j = 1 then 2 else 1

/-- The n-dimensional kernel built by the source's inner loop, as a function
of the multi-index into the `3 × ... × 3` kernel array.  `reshape` of a
length-3 array along axis `dim` (the source's `kernel_shape`) is embedded as
the function that reads component `dim` of the multi-index, and numpy's
broadcasting product of such arrays is the pointwise product of those
functions.  The fold over `List.finRange n` is the loop
`for smooth_dim in range(ndim)` with its `continue` on `smooth_dim == edge_dim`. -/
def sobelKernel (n : ℕ) (d : Fin n) : (Fin n → Fin 3) → ℝ :=
  (List.finRange n).foldl
    (fun kernel s => if s = d then kernel else fun o => kernel o * smooth (o s))
    (fun o => edge (o d))

/-- Modelled from the spec (an external black box in the source):
`scipy.ndimage`'s `mode='reflect'` boundary index map.  An out-of-range index
is brought into `[0, s)` by repeatedly mirroring about the array edge with the
edge sample repeated (`(d c b a | a b c d | d c b a)`), which is reduction
modulo `2*s` followed by folding the second half back. -/
def reflectIdx (s : ℕ) (i : ℤ) : ℤ :=
  if i % (2 * (s : ℤ)) < (s : ℤ) then i % (2 * (s : ℤ))
  else 2 * (s : ℤ) - 1 - i % (2 * (s : ℤ))

/-- Modelled from the spec (an external black box in the source):
`ndi.convolve(image, kernel, mode='reflect')` for a kernel of extent 3 along
every axis.  True convolution: the output at `c` is the sum over all kernel
multi-indices `o` of the kernel value times the input sample at `c` minus the
offset `o - 1`, with every read passed through the reflective boundary map. -/
def convolve3 (n : ℕ) (shape : Fin n → ℕ) (f : (Fin n → ℤ) → ℝ)
    (k : (Fin n → Fin 3) → ℝ) : (Fin n → ℤ) → ℝ :=
  fun c => ∑ o : Fin n → Fin 3,
    k o * f (fun i => reflectIdx (shape i) (c i - ((o i : ℤ) - 1)))

/-- The source's `sobel`: for each `edge_dim` accumulate the squared
reflective convolution with the directional kernel (the fold over
`List.finRange n` with initial value `0` is the loop building `output`
starting from `np.zeros(image.shape)`), then take the element-wise square
root and divide by `sqrt(ndim)`. -/
noncomputable def sobel (n : ℕ) (image : Image n) : Image n :=
  { shape := image.shape
    val := fun c =>
      Real.sqrt ((List.finRange n).foldl
        (fun output d =>
          output + convolve3 n image.shape image.val (sobelKernel n d) c ^ 2)
        0) / Real.sqrt (n : ℝ) }

/-- The single error kind named by the spec's error taxonomy. -/
inductive SobelError : Type where
  | invalidArgument : SobelError

/-- The source's `sobel` with its failure behaviour made explicit.  Every
operation in the source body is total for every float array input, including
a zero-dimensional one: `np.zeros(())` succeeds, the `for` loop over
`range(0)` is empty, and `np.sqrt(output) / np.sqrt(0)` evaluates to `0.0/0.0
= nan` with a `RuntimeWarning` — a warning, not a raised exception.  Hence the
function always returns normally. -/
noncomputable def sobelE (n : ℕ) (image : Image n) : Except SobelError (Image n) :=
  Except.ok (sobel n image)

/-! ### Helper lemmas: evaluating the two source loops -/

theorem foldl_add_sq (g : Fin n → ℝ) (L : List (Fin n)) :
    ∀ b : ℝ, L.foldl (fun acc x => acc + g x) b = b + (L.map g).sum := by
  induction L with
  | nil => intro b; simp
  | cons x L ih =>
      intro b
      rw [List.foldl_cons, ih, List.map_cons, List.sum_cons, add_assoc]

/-- The accumulation loop of `sobel` is the sum over all edge axes of the
squared reflective convolutions. -/
theorem sobel_val (n : ℕ) (image : Image n) (c : Fin n → ℤ) :
    (sobel n image).val c =
      Real.sqrt (∑ d : Fin n,
          convolve3 n image.shape image.val (sobelKernel n d) c ^ 2)
        / Real.sqrt (n : ℝ) := by
  show Real.sqrt ((List.finRange n).foldl _ 0) / _ = _
  rw [foldl_add_sq, zero_add, ← Fin.sum_univ_def]

theorem kernel_foldl_eq (n : ℕ) (d : Fin n) (o : Fin n → Fin 3)
    (L : List (Fin n)) :
    ∀ k : (Fin n → Fin 3) → ℝ,
      (L.foldl
        (fun kernel s => if s = d then kernel else fun o => kernel o * smooth (o s))
        k) o
        = k o * (L.map (fun s => if s = d then (1 : ℝ) else smooth (o s))).prod := by
  induction L with
  | nil => intro k; simp
  | cons s L ih =>
      intro k
      rw [List.foldl_cons, ih, List.map_cons, List.prod_cons]
      by_cases hs : s = d
      · rw [if_pos hs, if_pos hs, one_mul]
      · rw [if_neg hs, if_neg hs]
        show k o * smooth (o s) * _ = _
        ring

/-- The kernel built by the inner loop, in closed form: the edge factor along
the differencing axis times the smoothing factor along every other axis. -/
theorem sobelKernel_apply (n : ℕ) (d : Fin n) (o : Fin n → Fin 3) :
    sobelKernel n d o
      = ∏ s : Fin n, (if s = d then edge (o s) else smooth (o s)) := by
  have e1 : (∏ s ∈ Finset.univ.erase d, if s = d then (1 : ℝ) else smooth (o s))
      = ∏ s ∈ Finset.univ.erase d, smooth (o s) := by
    refine Finset.prod_congr rfl fun s hs => ?_
    exact if_neg (Finset.mem_erase.mp hs).1
  have e2 : (∏ s ∈ Finset.univ.erase d,
        if s = d then edge (o s) else smooth (o s))
      = ∏ s ∈ Finset.univ.erase d, smooth (o s) := by
    refine Finset.prod_congr rfl fun s hs => ?_
    exact if_neg (Finset.mem_erase.mp hs).1
  unfold sobelKernel
  rw [kernel_foldl_eq, ← Fin.prod_univ_def,
    ← Finset.mul_prod_erase Finset.univ
      (fun s => if s = d then edge (o s) else smooth (o s)) (Finset.mem_univ d),
    ← Finset.mul_prod_erase Finset.univ
      (fun s => if s = d then (1 : ℝ) else smooth (o s)) (Finset.mem_univ d),
    e1, e2]
  simp

/-- The kernel in the form used by the spec's reference description: the
centered-difference kernel along axis `d`, multiplied by the smoothing kernel
along every axis other than `d`. -/
theorem sobelKernel_erase (n : ℕ) (d : Fin n) (o : Fin n → Fin 3) :
    sobelKernel n d o = edge (o d) * ∏ s ∈ Finset.univ.erase d, smooth (o s) := by
  have e2 : (∏ s ∈ Finset.univ.erase d,
        if s = d then edge (o s) else smooth (o s))
      = ∏ s ∈ Finset.univ.erase d, smooth (o s) := by
    refine Finset.prod_congr rfl fun s hs => ?_
    exact if_neg (Finset.mem_erase.mp hs).1
  rw [sobelKernel_apply,
    ← Finset.mul_prod_erase Finset.univ
      (fun s => if s = d then edge (o s) else smooth (o s)) (Finset.mem_univ d),
    e2]
  simp

/-! ### Helper lemmas: the reflective boundary map -/

/-- Reflection lands inside the axis whenever the axis is nonempty. -/
theorem reflectIdx_mem (s : ℕ) (hs : 0 < s) (i : ℤ) :
    0 ≤ reflectIdx s i ∧ reflectIdx s i < (s : ℤ) := by
  unfold reflectIdx
  have hS : (1 : ℤ) ≤ (s : ℤ) := by exact_mod_cast hs
  have hM : (0 : ℤ) < 2 * (s : ℤ) := by linarith
  have hm0 : 0 ≤ i % (2 * (s : ℤ)) := Int.emod_nonneg i hM.ne'
  have hm1 : i % (2 * (s : ℤ)) < 2 * (s : ℤ) := Int.emod_lt_of_pos i hM
  constructor <;> split_ifs <;> linarith

/-- Reflection across a length-1 axis collapses every index to `0`. -/
theorem reflectIdx_one (i : ℤ) : reflectIdx 1 i = 0 := by
  unfold reflectIdx
  have hm0 : 0 ≤ i % (2 * ((1 : ℕ) : ℤ)) :=
    Int.emod_nonneg i (by norm_num)
  have hm1 : i % (2 * ((1 : ℕ) : ℤ)) < 2 * ((1 : ℕ) : ℤ) :=
    Int.emod_lt_of_pos i (by norm_num)
  split_ifs with h <;> push_cast at h hm0 hm1 ⊢ <;> omega

/-- The reflective boundary map commutes with the mirror `i ↦ s - 1 - i` of a
nonempty axis. -/
theorem reflectIdx_flip (s : ℕ) (hs : 0 < s) (i : ℤ) :
    reflectIdx s ((s : ℤ) - 1 - i) = (s : ℤ) - 1 - reflectIdx s i := by
  unfold reflectIdx
  have hS : (1 : ℤ) ≤ (s : ℤ) := by exact_mod_cast hs
  generalize (s : ℤ) = S at hS ⊢
  have hM : (0 : ℤ) < 2 * S := by linarith
  have hm0 : 0 ≤ i % (2 * S) := Int.emod_nonneg i hM.ne'
  have hm1 : i % (2 * S) < 2 * S := Int.emod_lt_of_pos i hM
  have hq : i % (2 * S) + 2 * S * (i / (2 * S)) = i := Int.emod_add_ediv i (2 * S)
  have key : (S - 1 - i) % (2 * S) = (S - 1 - i % (2 * S)) % (2 * S) := by
    conv_lhs =>
      rw [show S - 1 - i = S - 1 - i % (2 * S) + 2 * S * (-(i / (2 * S))) by
        linarith]
    rw [Int.add_mul_emod_self_left]
  by_cases hc : i % (2 * S) < S
  · have h2 : (S - 1 - i % (2 * S)) % (2 * S) = S - 1 - i % (2 * S) :=
      Int.emod_eq_of_lt (by linarith) (by linarith)
    rw [key, h2, if_pos hc, if_pos (by linarith)]
  · push_neg at hc
    have h2 : (S - 1 - i % (2 * S)) % (2 * S) = 3 * S - 1 - i % (2 * S) := by
      conv_lhs =>
        rw [show S - 1 - i % (2 * S)
            = 3 * S - 1 - i % (2 * S) + 2 * S * (-1) by ring]
      rw [Int.add_mul_emod_self_left]
      exact Int.emod_eq_of_lt (by linarith) (by linarith)
    rw [key, h2, if_neg (by linarith), if_neg (by linarith)]
    ring

/-! ### Helper lemmas: mirror symmetry of the 1-D kernels -/

/-- Position reversal in a length-3 array: index `j` goes to `2 - j`. -/
def rev3 : Fin 3 → Fin 3 := fun j => ⟨2 - j.val, by omega⟩

theorem rev3_rev3 : ∀ j : Fin 3, rev3 (rev3 j) = j := by decide

theorem edge_rev3 : ∀ j : Fin 3, edge (rev3 j) = -edge j := by
  intro j
  fin_cases j <;> simp [edge, rev3]

theorem smooth_rev3 : ∀ j : Fin 3, smooth (rev3 j) = smooth j := by
  intro j
  fin_cases j <;> simp [smooth, rev3]

theorem rev3_cast (j : Fin 3) : ((rev3 j : Fin 3) : ℤ) - 1 = -((j : ℤ) - 1) := by
  fin_cases j <;> simp [rev3]

/-- Reversal of the kernel multi-index along one axis `a`. -/
def flipO (n : ℕ) (a : Fin n) (o : Fin n → Fin 3) : Fin n → Fin 3 :=
  Function.update o a (rev3 (o a))

theorem flipO_involutive (n : ℕ) (a : Fin n) :
    Function.Involutive (flipO n a) := by
  intro o
  unfold flipO
  rw [Function.update_same, Function.update_idem, rev3_rev3,
    Function.update_eq_self]

/-- Reversal along one axis as a permutation of kernel multi-indices. -/
def flipOEquiv (n : ℕ) (a : Fin n) : Equiv.Perm (Fin n → Fin 3) :=
  Function.Involutive.toPerm (flipO n a) (flipO_involutive n a)

/-- Reversing the kernel multi-index along axis `a` negates the kernel when
`a` is the differencing axis and leaves it unchanged otherwise. -/
theorem sobelKernel_flipO (n : ℕ) (d a : Fin n) (o : Fin n → Fin 3) :
    sobelKernel n d (flipO n a o)
      = (if d = a then -1 else 1) * sobelKernel n d o := by
  rw [sobelKernel_apply, sobelKernel_apply]
  rw [← Finset.mul_prod_erase Finset.univ
      (fun s => if s = d then edge (flipO n a o s) else smooth (flipO n a o s))
      (Finset.mem_univ a),
    ← Finset.mul_prod_erase Finset.univ
      (fun s => if s = d then edge (o s) else smooth (o s))
      (Finset.mem_univ a)]
  have hprod : (∏ s ∈ Finset.univ.erase a,
        if s = d then edge (flipO n a o s) else smooth (flipO n a o s))
      = ∏ s ∈ Finset.univ.erase a, (if s = d then edge (o s) else smooth (o s)) := by
    refine Finset.prod_congr rfl fun s hs => ?_
    rw [show flipO n a o s = o s from
      Function.update_noteq (Finset.mem_erase.mp hs).1 _ _]
  rw [hprod]
  have hfa : flipO n a o a = rev3 (o a) := Function.update_same _ _ _
  by_cases hda : d = a
  · subst hda
    rw [if_pos rfl, if_pos rfl, if_pos rfl, hfa, edge_rev3]
    ring
  · have h1 : (if a = d then edge (flipO n a o a) else smooth (flipO n a o a))
        = smooth (rev3 (o a)) := by
      rw [if_neg (fun h => hda h.symm), hfa]
    have h2 : (if a = d then edge (o a) else smooth (o a)) = smooth (o a) :=
      if_neg (fun h => hda h.symm)
    rw [h1, h2, if_neg hda, smooth_rev3]
    ring

/-- The full n-dimensional directional kernel sums to zero (the `[1, 0, -1]`
factor cancels). -/
theorem sum_sobelKernel (n : ℕ) (d : Fin n) :
    ∑ o : Fin n → Fin 3, sobelKernel n d o = 0 := by
  have h1 : ∑ o : Fin n → Fin 3, sobelKernel n d o
      = ∑ o : Fin n → Fin 3, sobelKernel n d (flipOEquiv n d o) :=
    (Equiv.sum_comp (flipOEquiv n d) (sobelKernel n d)).symm
  have h2 : ∀ o : Fin n → Fin 3,
      sobelKernel n d (flipOEquiv n d o) = -sobelKernel n d o := by
    intro o
    show sobelKernel n d (flipO n d o) = _
    rw [sobelKernel_flipO, if_pos rfl]
    ring
  rw [Finset.sum_congr rfl fun o _ => h2 o, Finset.sum_neg_distrib] at h1
  linarith

/-! ### Flip equivariance of the reflective convolution -/

/-- Reversing (flipping) an image along axis `a`: sample `c` of the flip is
sample `c` with component `a` replaced by `shape a - 1 - c a` of the
original. -/
def flipAxis (n : ℕ) (a : Fin n) (image : Image n) : Image n :=
  { shape := image.shape
    val := fun c => image.val (Function.update c a ((image.shape a : ℤ) - 1 - c a)) }

/-- Mirroring the input along a nonempty axis `a` mirrors the reflective
convolution with the directional kernel for axis `d`, up to a sign `-1`
exactly when `a` is the differencing axis (the edge factor is odd, the
smoothing factors are even, and the reflective boundary map commutes with the
mirror). -/
theorem convolve3_flip (n : ℕ) (shape : Fin n → ℕ) (f : (Fin n → ℤ) → ℝ)
    (a d : Fin n) (ha : 0 < shape a) (c : Fin n → ℤ) :
    convolve3 n shape
        (fun x => f (Function.update x a ((shape a : ℤ) - 1 - x a)))
        (sobelKernel n d) c
      = (if d = a then -1 else 1)
        * convolve3 n shape f (sobelKernel n d)
            (Function.update c a ((shape a : ℤ) - 1 - c a)) := by
  have step : ∀ o : Fin n → Fin 3,
      sobelKernel n d (flipO n a o) *
        f (Function.update
            (fun i => reflectIdx (shape i) (c i - ((flipO n a o i : ℤ) - 1))) a
            ((shape a : ℤ) - 1
              - reflectIdx (shape a) (c a - ((flipO n a o a : ℤ) - 1))))
      = (if d = a then -1 else 1) *
        (sobelKernel n d o *
          f (fun i => reflectIdx (shape i)
              (Function.update c a ((shape a : ℤ) - 1 - c a) i - ((o i : ℤ) - 1)))) := by
    intro o
    have harg : Function.update
        (fun i => reflectIdx (shape i) (c i - ((flipO n a o i : ℤ) - 1))) a
        ((shape a : ℤ) - 1
          - reflectIdx (shape a) (c a - ((flipO n a o a : ℤ) - 1)))
        = fun i => reflectIdx (shape i)
            (Function.update c a ((shape a : ℤ) - 1 - c a) i - ((o i : ℤ) - 1)) := by
      funext i
      by_cases hi : i = a
      · subst hi
        rw [Function.update_same, Function.update_same,
          show flipO n i o i = rev3 (o i) from Function.update_same _ _ _]
        have h3 : ((rev3 (o i) : Fin 3) : ℤ) - 1 = -(((o i : Fin 3) : ℤ) - 1) :=
          rev3_cast (o i)
        rw [h3]
        have h4 := reflectIdx_flip (shape i) ha (c i + ((o i : ℤ) - 1))
        calc (shape i : ℤ) - 1 - reflectIdx (shape i) (c i - -((o i : ℤ) - 1))
            = (shape i : ℤ) - 1 - reflectIdx (shape i) (c i + ((o i : ℤ) - 1)) := by
              congr 1
              ring_nf
          _ = reflectIdx (shape i)
                ((shape i : ℤ) - 1 - (c i + ((o i : ℤ) - 1))) := h4.symm
          _ = reflectIdx (shape i)
                ((shape i : ℤ) - 1 - c i - ((o i : ℤ) - 1)) := by
              congr 1
              ring
      · rw [Function.update_noteq hi, Function.update_noteq hi,
          show flipO n a o i = o i from Function.update_noteq hi _ _]
    rw [sobelKernel_flipO n d a o, harg]
    ring
  show (∑ o : Fin n → Fin 3, sobelKernel n d o *
      f (Function.update
          (fun i => reflectIdx (shape i) (c i - ((o i : ℤ) - 1))) a
          ((shape a : ℤ) - 1
            - reflectIdx (shape a) (c a - ((o a : ℤ) - 1)))))
    = (if d = a then -1 else 1) * ∑ o : Fin n → Fin 3, sobelKernel n d o *
        f (fun i => reflectIdx (shape i)
            (Function.update c a ((shape a : ℤ) - 1 - c a) i - ((o i : ℤ) - 1)))
  refine ((Equiv.sum_comp (flipOEquiv n a) _).symm).trans
    ((Finset.sum_congr rfl fun o _ => step o).trans (Finset.mul_sum _ _ _).symm)

/-! ### Remaining operations and concrete test images -/

/-- The element-wise product of a real scalar and an image. -/
noncomputable def scaleImage (n : ℕ) (r : ℝ) (image : Image n) : Image n :=
  { shape := image.shape
    val := fun c => r * image.val c }

/-- The spec's reference definition of the filter, written directly from its
words: for each axis `d` the kernel is the 3-element centered-difference
kernel `[1, 0, -1]` oriented along axis `d` multiplied (outer product via
broadcasting) by `[1, 2, 1]` oriented along every other axis; the image is
convolved reflectively with that kernel, the squared results are summed over
all axes, and the square root of the sum is divided by `sqrt(ndim)`. -/
noncomputable def sobelSpec (n : ℕ) (image : Image n) : Image n :=
  { shape := image.shape
    val := fun c =>
      Real.sqrt (∑ d : Fin n,
          convolve3 n image.shape image.val
            (fun o => edge (o d) * ∏ s ∈ Finset.univ.erase d, smooth (o s)) c ^ 2)
        / Real.sqrt (n : ℝ) }

/-- A 1-D test image of length 4 with samples `x ↦ x`. -/
noncomputable def img1W : Image 1 :=
  { shape := fun _ => 4, val := fun c => ((c 0 : ℤ) : ℝ) }

/-- A 3×3 test image with samples `(x, y) ↦ x + 2 y`. -/
noncomputable def img2W : Image 2 :=
  { shape := fun _ => 3, val := fun c => ((c 0 + 2 * c 1 : ℤ) : ℝ) }

/-- A constant 3×3 test image with every sample equal to 5. -/
noncomputable def img2C : Image 2 :=
  { shape := fun _ => 3, val := fun _ => (5 : ℝ) }

/-- A 1×3 test image (first axis of length 1). -/
noncomputable def img2Deg : Image 2 :=
  { shape := fun i => if i = 0 then 1 else 3, val := fun c => ((c 1 : ℤ) : ℝ) }

/-- A zero-dimensional (scalar) test image holding the value 7. -/
noncomputable def img0W : Image 0 :=
  { shape := fun i => i.elim0, val := fun _ => (7 : ℝ) }

/-! ### The claims -/

/-- Claim C1: for every image with `ndim ≥ 1`, `sobel image` equals the
spec's reference definition `sobelSpec image` (per-axis separable kernel,
reflective convolution, squares summed over all axes, square root, division
by `sqrt ndim`). -/
theorem sobel_matches_reference (n : ℕ) (image : Image n) (h : 1 ≤ n) :
    sobel n image = sobelSpec n image := by
  refine Image.ext_val rfl (funext fun c => ?_)
  rw [sobel_val]
  show _ = Real.sqrt (∑ d : Fin n, _ ^ 2) / _
  have hker : ∀ d : Fin n,
      convolve3 n image.shape image.val (sobelKernel n d) c
        = convolve3 n image.shape image.val
            (fun o => edge (o d) * ∏ s ∈ Finset.univ.erase d, smooth (o s)) c := by
    intro d
    unfold convolve3
    exact Finset.sum_congr rfl fun o _ => by rw [sobelKernel_erase]
  rw [Finset.sum_congr rfl fun d _ => by rw [hker d]]

/-- Claim C1 witness: the reference equivalence at a concrete 1-D image. -/
theorem sobel_matches_reference_witness : sobel 1 img1W = sobelSpec 1 img1W :=
  sobel_matches_reference 1 img1W (by decide)

/-- Claim C2 counterexample: on the concrete zero-dimensional input `img0W`
the source's `sobel` does **not** raise: every operation in its body is total
(`np.zeros(())`, an empty loop, `sqrt(0)/sqrt(0)`), so the call returns
normally, refuting the claim that a zero-dimensional input fails with an
`InvalidArgument`-class error. -/
theorem sobel_scalar_not_error : (sobelE 0 img0W).isOk = true := rfl

/-- Claim C2 (amended): for every zero-dimensional input, `sobel` raises no
error; it runs to completion and returns a zero-dimensional array whose
single value is `sqrt(0)/sqrt(0)` (NaN in floating point; `0` in the
exact-real model, where division by zero is zero). -/
theorem sobel_zero_dim_returns (image : Image 0) :
    (sobelE 0 image).isOk = true ∧
      ∀ c : Fin 0 → ℤ, (sobel 0 image).val c = Real.sqrt 0 / Real.sqrt 0 := by
  refine ⟨rfl, fun c => ?_⟩
  show Real.sqrt ((List.finRange 0).foldl _ 0) / Real.sqrt ((0 : ℕ) : ℝ) = _
  norm_num

/-- Claim C3: for every input array of any shape (with `ndim ≥ 1`), the array
returned by `sobel` has the same shape as the input. -/
theorem sobel_shape_preserved (n : ℕ) (image : Image n) (h : 1 ≤ n) :
    (sobel n image).shape = image.shape := rfl

/-- Claim C3 witness: shape preservation at a concrete 2-D image. -/
theorem sobel_shape_preserved_witness : (sobel 2 img2W).shape = img2W.shape :=
  sobel_shape_preserved 2 img2W (by decide)

/-- Claim C4: for every input array with `ndim ≥ 1`, every element of the
array returned by `sobel` is a real number `≥ 0` (it is a square root divided
by a square root). -/
theorem sobel_nonneg (n : ℕ) (image : Image n) (h : 1 ≤ n) (c : Fin n → ℤ) :
    0 ≤ (sobel n image).val c := by
  show 0 ≤ Real.sqrt _ / Real.sqrt _
  exact div_nonneg (Real.sqrt_nonneg _) (Real.sqrt_nonneg _)

/-- Claim C4 witness: non-negativity at a concrete image and coordinate. -/
theorem sobel_nonneg_witness : 0 ≤ (sobel 2 img2W).val (fun _ => 0) :=
  sobel_nonneg 2 img2W (by decide) (fun _ => 0)

/-- Claim C5: for every 1-D input, `sobel image` is the element-wise absolute
value of the reflective convolution of the image with the centered-difference
kernel `[1, 0, -1]` (the squared first-difference convolution, square-rooted,
divided by `sqrt 1 = 1`). -/
theorem sobel_one_dim_abs_gradient (image : Image 1) :
    sobel 1 image
      = { shape := image.shape
          val := fun c =>
            |convolve3 1 image.shape image.val (fun o => edge (o 0)) c| } := by
  refine Image.ext_val rfl (funext fun c => ?_)
  rw [sobel_val]
  have hker : sobelKernel 1 0 = fun o => edge (o 0) := by
    funext o
    rw [sobelKernel_apply, Fin.prod_univ_one, if_pos rfl]
  rw [Fin.sum_univ_one, hker, Real.sqrt_sq_eq_abs]
  norm_num

/-- Claim C6: for every input with `ndim ≥ 1` axes, all nonempty, and every
axis `a`, flipping the input along `a` and then applying `sobel` yields the
same array as applying `sobel` and then flipping the result along `a`. -/
theorem sobel_flip_equivariant (n : ℕ) (a : Fin n) (image : Image n)
    (h : ∀ i, 0 < image.shape i) :
    sobel n (flipAxis n a image) = flipAxis n a (sobel n image) := by
  refine Image.ext_val rfl (funext fun c => ?_)
  rw [sobel_val]
  have hconv : ∀ d : Fin n,
      convolve3 n (flipAxis n a image).shape (flipAxis n a image).val
          (sobelKernel n d) c ^ 2
        = convolve3 n image.shape image.val (sobelKernel n d)
            (Function.update c a ((image.shape a : ℤ) - 1 - c a)) ^ 2 := by
    intro d
    have hc := convolve3_flip n image.shape image.val a d (h a) c
    rw [show convolve3 n (flipAxis n a image).shape (flipAxis n a image).val
          (sobelKernel n d) c
        = convolve3 n image.shape
            (fun x => image.val (Function.update x a ((image.shape a : ℤ) - 1 - x a)))
            (sobelKernel n d) c from rfl,
      hc, mul_pow]
    split_ifs <;> norm_num
  rw [Finset.sum_congr rfl fun d _ => hconv d,
    ← sobel_val n image (Function.update c a ((image.shape a : ℤ) - 1 - c a))]
  rfl

/-- Claim C6 witness: flip equivariance at a concrete 3×3 image and axis 0. -/
theorem sobel_flip_equivariant_witness :
    sobel 2 (flipAxis 2 0 img2W) = flipAxis 2 0 (sobel 2 img2W) :=
  sobel_flip_equivariant 2 0 img2W (by decide)

/-- Claim C7: for every 2-D input all of whose elements equal the same
constant, `sobel` returns the all-zero array of the same shape (every
directional kernel sums to zero, so every convolution pass vanishes on a
constant array). -/
theorem sobel_constant_zero (image : Image 2) (k : ℝ)
    (h : ∀ c, InRange 2 image.shape c → image.val c = k) :
    (sobel 2 image).shape = image.shape ∧
      ∀ c, InRange 2 image.shape c → (sobel 2 image).val c = 0 := by
  refine ⟨rfl, fun c hc => ?_⟩
  have hpos : ∀ i, 0 < image.shape i := by
    intro i
    have hci := hc i
    omega
  rw [sobel_val]
  have hconv : ∀ d : Fin 2,
      convolve3 2 image.shape image.val (sobelKernel 2 d) c = 0 := by
    intro d
    unfold convolve3
    have hread : ∀ o : Fin 2 → Fin 3,
        image.val (fun i => reflectIdx (image.shape i) (c i - ((o i : ℤ) - 1))) = k :=
      fun o => h _ fun i => reflectIdx_mem (image.shape i) (hpos i) _
    calc ∑ o : Fin 2 → Fin 3, sobelKernel 2 d o *
            image.val (fun i => reflectIdx (image.shape i) (c i - ((o i : ℤ) - 1)))
        = ∑ o : Fin 2 → Fin 3, sobelKernel 2 d o * k :=
          Finset.sum_congr rfl fun o _ => by rw [hread o]
      _ = (∑ o : Fin 2 → Fin 3, sobelKernel 2 d o) * k := (Finset.sum_mul _ _ _).symm
      _ = 0 := by rw [sum_sobelKernel]; ring
  have hzero : ∑ d : Fin 2,
      convolve3 2 image.shape image.val (sobelKernel 2 d) c ^ 2 = 0 := by
    refine Finset.sum_eq_zero fun d _ => ?_
    rw [hconv d]
    norm_num
  rw [hzero, Real.sqrt_zero, zero_div]

/-- Claim C7 witness: the filtered constant image vanishes at a concrete
in-range coordinate. -/
theorem sobel_constant_zero_witness : (sobel 2 img2C).val (fun _ => 0) = 0 :=
  (sobel_constant_zero img2C 5 fun c hc => rfl).2 (fun _ => 0) (by decide)

/-- Claim C9: if some axis `d` of the input has length 1, the convolution
pass whose centered-difference kernel is oriented along `d` is identically
zero: reflection across a length-1 axis collapses every read to index 0, so
the `[1, 0, -1]` factor cancels and that axis contributes zero to the
accumulated sum of squares. -/
theorem sobel_axis_length_one_zero (n : ℕ) (image : Image n) (d : Fin n)
    (h : image.shape d = 1) (c : Fin n → ℤ) :
    convolve3 n image.shape image.val (sobelKernel n d) c = 0 := by
  unfold convolve3
  have key : ∀ o : Fin n → Fin 3,
      sobelKernel n d (flipO n d o) *
        image.val (fun i =>
          reflectIdx (image.shape i) (c i - ((flipO n d o i : ℤ) - 1)))
      = -(sobelKernel n d o *
          image.val (fun i =>
            reflectIdx (image.shape i) (c i - ((o i : ℤ) - 1)))) := by
    intro o
    have hread : (fun i =>
          reflectIdx (image.shape i) (c i - ((flipO n d o i : ℤ) - 1)))
        = fun i => reflectIdx (image.shape i) (c i - ((o i : ℤ) - 1)) := by
      funext i
      by_cases hi : i = d
      · subst hi
        rw [h, reflectIdx_one, reflectIdx_one]
      · rw [show flipO n d o i = o i from Function.update_noteq hi _ _]
    rw [sobelKernel_flipO n d d o, if_pos rfl, hread]
    ring
  have h1 : (∑ o : Fin n → Fin 3, sobelKernel n d o *
        image.val (fun i =>
          reflectIdx (image.shape i) (c i - ((o i : ℤ) - 1))))
      = -(∑ o : Fin n → Fin 3, sobelKernel n d o *
          image.val (fun i =>
            reflectIdx (image.shape i) (c i - ((o i : ℤ) - 1)))) :=
    ((Equiv.sum_comp (flipOEquiv n d) _).symm).trans
      ((Finset.sum_congr rfl fun o _ => key o).trans Finset.sum_neg_distrib)
  linarith

/-- Claim C9 witness: the degenerate-axis pass vanishes on a concrete 1×3
image at a concrete coordinate. -/
theorem sobel_axis_length_one_zero_witness :
    convolve3 2 img2Deg.shape img2Deg.val (sobelKernel 2 0) (fun _ => 0) = 0 :=
  sobel_axis_length_one_zero 2 img2Deg 0 (by decide) (fun _ => 0)

/-- Claim C10: `sobel` is absolutely homogeneous in exact real arithmetic:
scaling the input by `r` scales the output by `|r|`. -/
theorem sobel_abs_homogeneous (n : ℕ) (r : ℝ) (image : Image n) (h : 1 ≤ n) :
    sobel n (scaleImage n r image) = scaleImage n |r| (sobel n image) := by
  refine Image.ext_val rfl (funext fun c => ?_)
  rw [sobel_val]
  have hconv : ∀ d : Fin n,
      convolve3 n (scaleImage n r image).shape (scaleImage n r image).val
          (sobelKernel n d) c
        = r * convolve3 n image.shape image.val (sobelKernel n d) c := by
    intro d
    rw [show convolve3 n (scaleImage n r image).shape (scaleImage n r image).val
          (sobelKernel n d) c
        = ∑ o : Fin n → Fin 3, sobelKernel n d o *
            (r * image.val (fun i =>
              reflectIdx (image.shape i) (c i - ((o i : ℤ) - 1)))) from rfl,
      show convolve3 n image.shape image.val (sobelKernel n d) c
        = ∑ o : Fin n → Fin 3, sobelKernel n d o *
            image.val (fun i =>
              reflectIdx (image.shape i) (c i - ((o i : ℤ) - 1))) from rfl,
      Finset.mul_sum]
    exact Finset.sum_congr rfl fun o _ => by ring
  have hsum : ∑ d : Fin n,
      convolve3 n (scaleImage n r image).shape (scaleImage n r image).val
          (sobelKernel n d) c ^ 2
      = r ^ 2 * ∑ d : Fin n,
          convolve3 n image.shape image.val (sobelKernel n d) c ^ 2 := by
    rw [Finset.mul_sum]
    refine Finset.sum_congr rfl fun d _ => ?_
    rw [hconv d]
    ring
  rw [hsum, Real.sqrt_mul (sq_nonneg r), Real.sqrt_sq_eq_abs, mul_div_assoc,
    ← sobel_val]
  rfl

/-- Claim C10 witness: absolute homogeneity at a concrete image and the
scalar `-2`. -/
theorem sobel_abs_homogeneous_witness :
    sobel 2 (scaleImage 2 (-2) img2W) = scaleImage 2 |(-2 : ℝ)| (sobel 2 img2W) :=
  sobel_abs_homogeneous 2 (-2) img2W (by decide)
